import Mathlib

/-!
Verification development for the `mcp-claude-history` server (`src/server.py`).

The Python source is shallowly embedded: strings become `List Char`, Python
`int`/`float` values that are only compared become `Int`, Python `dict`
result rows become association lists or structures, and the `heapq`-based
top-K selection becomes an explicit extract-minimum loop over the multiset
of pushed items (which is exactly the observable contract of a binary heap
when all pushed keys are distinct, as they are here thanks to the unique
insertion counter in each pushed tuple).

Python's `str.isalpha` and `str.lower` consult the full Unicode tables; the
embedding is parametric in these two character-level semantics (`isAl`,
`low`).  All universally quantified theorems hold for every choice of the
two functions, hence in particular for the real Unicode tables; concrete
witnesses instantiate them with the ASCII `Char.isAlpha` / `Char.toLower`,
which agree with Python on the ASCII inputs used there.
-/

/-- Python's `str.strip()` restricted to character lists: drop leading and
trailing whitespace.  (Runs flushed by `tokenize` consist of alphabetic
characters only, so in the source this is defensive.) -/
def pyStrip (s : List Char) : List Char :=
  ((s.dropWhile Char.isWhitespace).reverse.dropWhile Char.isWhitespace).reverse

/-- The CJK Unified Ideographs test of `tokenize`:
`'一' <= char <= '鿿'` (server.py line 29). -/
def isCJK (c : Char) : Bool :=
  decide ('一' ≤ c) && decide (c ≤ '鿿')

section CharSem

variable (isAl : Char → Bool) (low : Char → Char)

/-- Flushing the pending English run in `tokenize`
(`tokens.append(current_en.strip().lower())` guarded by
`if current_en.strip():`, server.py lines 30-32, 37-39, 41-42). -/
def flushTok (cur : List Char) : List (List Char) :=
  if pyStrip cur ≠ [] then [(pyStrip cur).map low] else []

/-- The character scan of `tokenize` (server.py lines 25-42): CJK characters
flush the pending run and are emitted as single-character tokens, alphabetic
characters extend the pending run, anything else flushes the run; the run
still pending at end of input is flushed last. -/
def scanAux : List Char → List Char → List (List Char)
  | cur, [] => flushTok low cur
  | cur, c :: rest =>
    if isCJK c then flushTok low cur ++ ([c] :: scanAux [] rest)
    else if isAl c then scanAux (cur ++ [c]) rest
    else flushTok low cur ++ scanAux [] rest

/-- The raw token stream of `tokenize` before deduplication: the list
`tokens` as it stands at server.py line 44. -/
def rawTokens (text : List Char) : List (List Char) :=
  scanAux isAl low [] text

end CharSem

/-- The deduplicating comprehension of `tokenize` (server.py lines 44-45):
`[t for t in tokens if t and not (t in seen or seen.add(t))]`, i.e. drop
empty tokens and every token already seen, keeping first occurrences. -/
def dedupAux : List (List Char) → List (List Char) → List (List Char)
  | _, [] => []
  | seen, t :: ts =>
    if t = [] ∨ t ∈ seen then dedupAux seen ts
    else t :: dedupAux (t :: seen) ts

section CharSem2

variable (isAl : Char → Bool) (low : Char → Char)

/-- `tokenize` (server.py lines 23-45): scan, deduplicate keeping first
occurrences, cap at 10 tokens. -/
def tokenize (text : List Char) : List (List Char) :=
  (dedupAux [] (rawTokens isAl low text)).take 10

end CharSem2

/-- `create_pairs` (server.py lines 48-49): `itertools.combinations(tokens, 2)`
in the standard enumeration order (fix the lower index, vary the higher). -/
def create_pairs : List (List Char) → List (List Char × List Char)
  | [] => []
  | x :: xs => (xs.map fun y => (x, y)) ++ create_pairs xs

/-- First-occurrence index of `needle` in `hay`, i.e. Python `hay.find(needle)`
returning `none` instead of `-1` when there is no occurrence. -/
def strFind (hay needle : List Char) : Option Nat :=
  match hay with
  | [] => if needle = [] then some 0 else none
  | _ :: t => if needle.isPrefixOf hay then some 0
              else (strFind t needle).map (· + 1)

/-- Python's substring test `needle in hay`. -/
def substrB (hay needle : List Char) : Bool :=
  (strFind hay needle).isSome

section CharSem3

variable (low : Char → Char)

/-- `count_pair_hits` (server.py lines 52-56) on a string body (the only
shape reaching it from `search_history`, where user content is
`isinstance`-checked to be `str` and assistant content is built as a `str`):
lowercase the body, count the pairs both of whose tokens occur as
substrings. -/
def count_pair_hits (text : List Char) (pairs : List (List Char × List Char)) : Nat :=
  let text_lower := text.map low
  pairs.countP fun pr => substrB text_lower pr.1 && substrB text_lower pr.2

end CharSem3

/-- `dheap_weight` (server.py lines 59-63).  `1.0` for `rank <= 0`, else
`1 / d ** int(math.log(max(rank, 1)) / math.log(d))`.  The embedding uses
the exact real-logarithm semantics of that expression: for `rank ≥ 1` and
`d ≥ 2` the truncated quotient of natural logarithms is
`⌊log_d rank⌋ = Nat.log d rank`.  (Python would raise `ZeroDivisionError`
for `d = 1`; the claims only exercise the default `d = 4`.) -/
def dheap_weight (rank : Int) (d : Nat := 4) : ℚ :=
  if rank ≤ 0 then 1
  else 1 / (d : ℚ) ^ Nat.log d (max rank 1).toNat

example : create_pairs [[ 'a' ], [ 'b' ], [ 'c' ]] =
    [([ 'a' ], [ 'b' ]), ([ 'a' ], [ 'c' ]), ([ 'b' ], [ 'c' ])] := rfl

example : strFind "hello world".toList "o w".toList = some 4 := by decide

example : tokenize Char.isAlpha Char.toLower "Claude Code!".toList =
    ["claude".toList, "code".toList] := by decide

example : tokenize Char.isAlpha Char.toLower "!!!".toList = [] := by decide

/-- One block of a list-valued `message.content`, as inspected by the three
tools.  `text` is a dict with `type == 'text'` and string `text` field (an
absent field defaults to the empty string); `toolUse` is a dict with
`type == 'tool_use'`, carrying the rendering of `item.get('name')`; `other`
is any other list element (a non-dict, or a dict of another type), which
every branch of the source skips. -/
inductive Block
  | text (s : List Char)
  | toolUse (nm : List Char)
  | other
deriving DecidableEq

/-- The duck-typed `entry.get('message', {}).get('content', ...)` value, in
the shapes the log format produces (spec §6: `content: string |
list-of-blocks`); `missing` covers an absent `message` or `content` key, for
which the source's `.get` defaults apply. -/
inductive JContent
  | str (s : List Char)
  | blocks (bs : List Block)
  | missing
deriving DecidableEq

/-- One successfully parsed log record (one `orjson.loads(line)` result).
`type` is `entry.get('type')` (`none` when absent), `isMeta` the truthiness
of `entry.get('isMeta')`, `content` the message content, and `msgRepr` the
rendering `str(entry.get('message', ''))` used by `get_context` for records
that are neither user nor assistant (empty exactly when `message` is absent,
since `str` of any present JSON value is non-empty). -/
structure Entry where
  type : Option (List Char)
  isMeta : Bool
  content : JContent
  msgRepr : List Char
deriving DecidableEq

/-- Concatenation of the `text` fields of all `text`-typed blocks: the
`text` accumulator of the assistant branches (server.py lines 110-113,
204-207).  A string content contributes nothing (iterating a Python `str`
yields characters, never dicts), and a missing content defaults to `[]`. -/
def concatTexts : JContent → List Char
  | .blocks bs => (bs.map fun b => match b with | .text s => s | _ => []).flatten
  | _ => []

/-- The candidate-admission logic of `search_history` (server.py lines
100-115): the value of the local `content` after the `if`/`elif`, `none`
meaning the record is not a scorable candidate message. -/
def searchContent (e : Entry) : Option (List Char) :=
  if e.type = some "user".toList ∧ e.isMeta = false then
    match e.content with
    | .str s => if s ≠ [] ∧ 20 < s.length then some s else none
    | _ => none
  else if e.type = some "assistant".toList then
    (fun text => if text ≠ [] ∧ 50 < text.length then some text else none)
      (concatTexts e.content)
  else none

/-- The record-counting logic of `search_stats` (server.py lines 195-209):
`true` exactly when the record appends a `1` to `messages`. -/
def statsQualifies (e : Entry) : Bool :=
  if e.type = some "user".toList ∧ e.isMeta = false then
    match e.content with
    | .str s => !s.isEmpty && 20 < s.length
    | _ => false
  else if e.type = some "assistant".toList then
    (fun text => !text.isEmpty && 50 < text.length) (concatTexts e.content)
  else false

/-- One discovered session log file (`PROJECTS_DIR.glob('*/*.jsonl')`):
its parent directory name, file name, stat modification time, whether
opening/reading it raises (with the exception's description), and its parsed
lines (`none` for a line whose processing raises, e.g. malformed JSON). -/
structure SessionFile where
  project : List Char
  name : List Char
  mtime : Int
  readErr : Option (List Char)
  lines : List (Option Entry)
deriving DecidableEq

/-- The environment the three tools scan: the corpus root (`PROJECTS_DIR`,
rendered by `str`) and the discovered files in glob order. -/
structure Corpus where
  root : List Char
  files : List SessionFile
deriving DecidableEq

/-- `Path.stem`: the file name with its last suffix removed, where a
leading-dot-only name has no suffix. -/
def stemOf (n : List Char) : List Char :=
  if '.' ∈ n then
    let i := n.length - 1 - n.reverse.indexOf '.'
    if 0 < i ∧ i < n.length - 1 then n.take i else n
  else n

/-- The stored `'session': session_file.stem[:8]` field. -/
def sessionOf (sf : SessionFile) : List Char :=
  (stemOf sf.name).take 8

/-- The dict pushed with each heap tuple (server.py lines 126-135). -/
structure Item where
  project : List Char
  mtype : List Char
  content : List Char
  session : List Char
  file : List Char
  line : Nat
  hits : Nat
  normalized : ℚ
deriving DecidableEq

/-- A scored candidate about to be pushed: the non-counter data of the heap
tuple `(-hits, -mtime, counter, item)`. -/
structure Cand where
  hits : Nat
  mtime : Int
  item : Item
deriving DecidableEq

/-- A pushed heap element: a scored candidate tagged with the insertion
counter (server.py lines 120-136). -/
structure HeapItem where
  counter : Nat
  cand : Cand
deriving DecidableEq

/-- The lexicographic key of the pushed tuple `(-hits, -mtime, counter)`
under which `heapq` orders the heap. -/
def hkey (x : HeapItem) : Int ×ₗ Int ×ₗ Nat :=
  toLex (-(x.cand.hits : Int), toLex (-x.cand.mtime, x.counter))

/-- The selection order in the claims' vocabulary: hit count descending,
then source modification time descending, then insertion counter
ascending. -/
def rankLE (a b : HeapItem) : Prop :=
  b.cand.hits < a.cand.hits ∨
    (a.cand.hits = b.cand.hits ∧
      (b.cand.mtime < a.cand.mtime ∨
        (a.cand.mtime = b.cand.mtime ∧ a.counter ≤ b.counter)))

instance : DecidableRel rankLE := fun _ _ => by
  unfold rankLE; infer_instance

/-- Extract a minimal element (under the pushed-tuple order) together with
the remaining elements: the observable effect of one `heapq.heappop`. -/
def popMin : List HeapItem → Option (HeapItem × List HeapItem)
  | [] => none
  | x :: xs =>
    match popMin xs with
    | none => some (x, [])
    | some (m, rest) => if hkey x ≤ hkey m then some (x, xs) else some (m, x :: rest)

/-- The extraction loop of `search_history` (server.py lines 143-147):
pop at most `k` items from the heap, in heap order. -/
def drainAux : Nat → List HeapItem → List HeapItem
  | 0, _ => []
  | k + 1, h =>
    match popMin h with
    | none => []
    | some (m, rest) => m :: drainAux k rest

/-- Tag a candidate stream with insertion counters `n, n+1, …` (the
`counter` local of `search_history`, first pushed value `1`). -/
def assign : Nat → List Cand → List HeapItem
  | _, [] => []
  | n, c :: cs => ⟨n, c⟩ :: assign (n + 1) cs

section Pipeline

variable (isAl : Char → Bool) (low : Char → Char)

/-- The pivot search of the snippet code (server.py lines 153-160): walk the
pairs in order; for the first pair with both tokens found in the lowered
content, `best_pos` is the smaller of the two first-occurrence positions;
it stays `0` if no pair qualifies. -/
def findPivot (content_lower : List Char) : List (List Char × List Char) → Nat
  | [] => 0
  | (t1, t2) :: ps =>
    match strFind content_lower t1, strFind content_lower t2 with
    | some p1, some p2 => min p1 p2
    | _, _ => findPivot content_lower ps

/-- The snippet construction of `search_history` (server.py lines 150-169):
slice `content[start:end]` around the pivot with radius 100, then mark a
clipped start with a leading `'...'` and a clipped end with a trailing
`'...'`. -/
def extract_snippet (content : List Char) (pairs : List (List Char × List Char)) :
    List Char :=
  let content_lower := content.map low
  let best_pos := findPivot content_lower pairs
  let start := best_pos - 100
  let stop := min content.length (best_pos + 100)
  let snippet := (content.take stop).drop start
  let snippet := if 0 < start then "...".toList ++ snippet else snippet
  if stop < content.length then snippet ++ "...".toList else snippet

/-- One qualifying candidate message of the corpus scan, before scoring:
the data `search_history` has in hand right after line 117's `if content:`
succeeds. -/
structure Msg where
  project : List Char
  mtype : List Char
  content : List Char
  session : List Char
  file : List Char
  line : Nat
  mtime : Int
deriving DecidableEq

/-- The qualifying messages of one session file, in line order
(server.py lines 91-116); a file whose open/read raises contributes
nothing (`except: continue`, lines 139-140). -/
def fileMsgs (sf : SessionFile) : List Msg :=
  if sf.readErr.isSome then []
  else
    (List.enumFrom 1 sf.lines).filterMap fun le =>
      le.2.bind fun e =>
        (searchContent e).map fun c =>
          ⟨sf.project, e.type.getD [], c, sessionOf sf, sf.name, le.1, sf.mtime⟩

/-- The full candidate-message stream of the corpus scan, in file/line
traversal order. -/
def msgsOf (corpus : Corpus) : List Msg :=
  (corpus.files.map fileMsgs).flatten

/-- Scoring and filtering of the stream (server.py lines 117-136): each
message is scored by `count_pair_hits`; only `hits > 0` is pushed, with the
stored dict `item`. -/
def candList (pairs : List (List Char × List Char)) (msgs : List Msg) : List Cand :=
  msgs.filterMap fun m =>
    let hits := count_pair_hits low m.content pairs
    if 0 < hits then
      some ⟨hits, m.mtime,
        ⟨m.project, m.mtype, m.content, m.session, m.file, m.line, hits,
          (hits : ℚ) / (pairs.length : ℚ)⟩⟩
    else none

/-- A value of one returned result row (the rows are Python dicts with
string and integer values). -/
inductive RVal
  | s (v : List Char)
  | n (v : Nat)
deriving DecidableEq

/-- The result row appended for one popped item (server.py lines 171-176),
as the association list of the dict literal. -/
def resultEntry (pairs : List (List Char × List Char)) (it : Item) :
    List (String × RVal) :=
  [("file", .s it.file), ("line", .n it.line), ("hits", .n it.hits),
   ("snippet", .s (extract_snippet low it.content pairs))]

/-- `search_history` (server.py lines 67-178): tokenize the query, build the
pairs, return `[]` when there are none; otherwise score the corpus stream,
push every positive-hit candidate with its insertion counter, and pop at
most `limit` items, rendering each into its result row. -/
def search_history (corpus : Corpus) (query : List Char) (limit : Nat) :
    List (List (String × RVal)) :=
  let tokens := tokenize isAl low query
  let pairs := create_pairs tokens
  if pairs.length = 0 then []
  else
    let heap := assign 1 (candList low pairs (msgsOf corpus))
    (drainAux limit heap).map fun hi => resultEntry low pairs hi.cand.item

end Pipeline

/-- Lexicographic string comparison, the ordering contract of Python's
`sorted` on `str`. -/
def strLeB : List Char → List Char → Bool
  | [], _ => true
  | _ :: _, [] => false
  | a :: as, b :: bs => if a < b then true else if a = b then strLeB as bs else false

/-- Insert into a `strLeB`-sorted list of strings. -/
def insertStr (x : List Char) : List (List Char) → List (List Char)
  | [] => [x]
  | y :: ys => if strLeB x y then x :: y :: ys else y :: insertStr x ys

/-- Sort a list of strings by `strLeB` (the contract of `sorted`). -/
def sortStrs : List (List Char) → List (List Char)
  | [] => []
  | x :: xs => insertStr x (sortStrs xs)

/-- The distinct elements of a list in first-occurrence order (the contents
of the `projects` set; only its cardinality and sorted rendering are
observable). -/
def distinctsOf : List (List Char) → List (List Char) :=
  dedupAux []

/-- The result of `search_stats` (server.py lines 182-219): the count of
qualifying messages over all readable files, the number of distinct project
directories (all discovered files contribute, since `projects.add` precedes
the `try`), and the sorted distinct project names. -/
structure StatsResult where
  total_messages : Nat
  projects : Nat
  project_list : List (List Char)
deriving DecidableEq

/-- `search_stats` (server.py lines 182-219). -/
def search_stats (corpus : Corpus) : StatsResult :=
  let projs := distinctsOf (corpus.files.map (·.project))
  { total_messages :=
      (corpus.files.map fun sf =>
        if sf.readErr.isSome then 0
        else (sf.lines.filterMap id).countP statsQualifies).sum
    projects := projs.length
    project_list := sortStrs projs }

/-- The content value (string or list of blocks) of one record as rebuilt
by `get_context` (server.py lines 259-276). -/
inductive GCContent
  | str (s : List Char)
  | blocks (bs : List Block)
deriving DecidableEq

/-- One row of the `messages` list of a `get_context` result
(server.py lines 273-278). -/
structure GCRecord where
  line : Nat
  mtype : Option (List Char)
  content : GCContent
  is_target : Bool
deriving DecidableEq

/-- A `get_context` result: the success dict (server.py lines 289-295), the
file-not-found error dict with its `searched_in` field (lines 241-245), or
the read-failure error dict (lines 284-287). -/
inductive GCResult
  | ok (file : List Char) (target_line : Int) (context_range : List Char)
      (messages : List GCRecord) (total_messages : Nat)
  | notFound (error : List Char) (searched_in : List Char)
  | readError (error : List Char)
deriving DecidableEq

/-- The `content` value `get_context` rebuilds for one record, before the
`content[:1000] if content else ''` truncation: a user record passes the raw
message content through (string, or list of blocks — no `isinstance` check
here), an assistant record concatenates text blocks and bracketed tool
markers, anything else is rendered with `str`.  `none` when the truncation
expression itself raises (a non-sliceable truthy content), which skips the
record. -/
def gcRawContent (e : Entry) : Option GCContent :=
  if e.type = some "user".toList then
    match e.content with
    | .str s => some (.str s)
    | .blocks bs => some (.blocks bs)
    | .missing => some (.str [])
  else if e.type = some "assistant".toList then
    some (.str ((match e.content with
      | .blocks bs => bs.map fun b =>
          match b with
          | Block.text s => s
          | Block.toolUse nm => '\n' :: ("[Tool: ".toList ++ nm ++ [']'])
          | Block.other => ([] : List Char)
      | _ => ([] : List (List Char))).flatten))
  else some (.str e.msgRepr)

/-- The `content[:1000] if content else ''` truncation (server.py line 276):
slicing keeps the first 1000 characters of a string or the first 1000
elements of a list, and a falsy content (empty string or empty list) becomes
the empty string. -/
def gcTruncate : GCContent → GCContent
  | .str s => .str (s.take 1000)
  | .blocks bs => if bs = [] then .str [] else .blocks (bs.take 1000)

/-- The `context_messages` accumulation of `get_context` (server.py lines
250-283): every line whose 1-based number lies in
`[max 1 (line - context_lines), line + context_lines]` and that both parses
and rebuilds a content value contributes one record. -/
def gcMessages (target_file : SessionFile) (line context_lines : Int) :
    List GCRecord :=
  (List.enumFrom 1 target_file.lines).filterMap fun le =>
    if max 1 (line - context_lines) ≤ (le.1 : Int) ∧
        (le.1 : Int) ≤ line + context_lines then
      le.2.bind fun e =>
        (gcRawContent e).map fun c =>
          ⟨le.1, e.type, gcTruncate c, decide ((le.1 : Int) = line)⟩
    else none

/-- `get_context` (server.py lines 223-295). -/
def get_context (corpus : Corpus) (file : List Char) (line : Int)
    (context_lines : Int := 5) : GCResult :=
  match corpus.files.find? fun sf => decide (sf.name = file) with
  | none => .notFound ("File not found: ".toList ++ file) corpus.root
  | some target_file =>
    let start_line := max 1 (line - context_lines)
    let end_line := line + context_lines
    match target_file.readErr with
    | some e => .readError ("Failed to read file: ".toList ++ e)
    | none =>
      .ok file line
        ((toString start_line).toList ++ '-' :: (toString end_line).toList)
        (gcMessages target_file line context_lines)
        (gcMessages target_file line context_lines).length


/-! ### Properties of the bounded top-K selector -/

lemma rankLE_iff (a b : HeapItem) : rankLE a b ↔ hkey a ≤ hkey b := by
  unfold rankLE hkey
  rw [Prod.Lex.le_iff]
  simp only [Prod.Lex.le_iff]
  omega

instance : IsTotal HeapItem rankLE :=
  ⟨fun a b => by
    rcases le_total (hkey a) (hkey b) with h | h
    · exact Or.inl ((rankLE_iff a b).mpr h)
    · exact Or.inr ((rankLE_iff b a).mpr h)⟩

instance : IsTrans HeapItem rankLE :=
  ⟨fun a b c hab hbc =>
    (rankLE_iff a c).mpr (le_trans ((rankLE_iff a b).mp hab) ((rankLE_iff b c).mp hbc))⟩

lemma popMin_eq_none {h : List HeapItem} : popMin h = none ↔ h = [] := by
  cases h with
  | nil => simp [popMin]
  | cons x xs =>
    cases hxs : popMin xs with
    | none => simp [popMin, hxs]
    | some p =>
      obtain ⟨m, r⟩ := p
      simp only [popMin, hxs]
      split <;> simp

lemma popMin_perm : ∀ {h : List HeapItem} {m rest},
    popMin h = some (m, rest) → (m :: rest).Perm h := by
  intro h
  induction h with
  | nil => intro m rest hp; simp [popMin] at hp
  | cons x xs ih =>
    intro m rest hp
    cases hxs : popMin xs with
    | none =>
      have hnil : xs = [] := popMin_eq_none.mp hxs
      subst hnil
      simp [popMin] at hp
      obtain ⟨h1, h2⟩ := hp
      subst h1; subst h2
      exact List.Perm.refl _
    | some p =>
      obtain ⟨m', rest'⟩ := p
      simp only [popMin, hxs] at hp
      by_cases hc : hkey x ≤ hkey m'
      · rw [if_pos hc] at hp
        cases hp
        exact List.Perm.refl _
      · rw [if_neg hc] at hp
        cases hp
        exact (List.Perm.swap _ _ _).trans ((ih hxs).cons x)

lemma popMin_min : ∀ {h : List HeapItem} {m rest},
    popMin h = some (m, rest) → ∀ x ∈ h, hkey m ≤ hkey x := by
  intro h
  induction h with
  | nil => intro m rest hp; simp [popMin] at hp
  | cons y ys ih =>
    intro m rest hp x hx
    cases hys : popMin ys with
    | none =>
      have hnil : ys = [] := popMin_eq_none.mp hys
      subst hnil
      simp [popMin] at hp
      obtain ⟨h1, h2⟩ := hp
      subst h1
      rcases List.mem_singleton.mp hx with rfl
      exact le_refl _
    | some p =>
      obtain ⟨m', rest'⟩ := p
      simp only [popMin, hys] at hp
      by_cases hc : hkey y ≤ hkey m'
      · rw [if_pos hc] at hp
        cases hp
        rcases List.mem_cons.mp hx with rfl | hx'
        · exact le_refl _
        · exact le_trans hc (ih hys x hx')
      · rw [if_neg hc] at hp
        cases hp
        rcases List.mem_cons.mp hx with rfl | hx'
        · exact le_of_not_le hc
        · exact ih hys x hx'

lemma sorted_key_perm_eq {α κ : Type} [LinearOrder κ] (key : α → κ) :
    ∀ {l₁ l₂ : List α}, l₁.Perm l₂ →
      l₁.Sorted (fun a b => key a ≤ key b) →
      l₂.Sorted (fun a b => key a ≤ key b) →
      (l₁.map key).Nodup → l₁ = l₂ := by
  intro l₁
  induction l₁ with
  | nil =>
    intro l₂ hp _ _ _
    exact (hp.nil_eq).symm ▸ rfl
  | cons a t₁ ih =>
    intro l₂ hp hs₁ hs₂ hn
    rw [List.map_cons, List.nodup_cons] at hn
    cases l₂ with
    | nil => exact absurd hp.length_eq (by simp)
    | cons b t₂ =>
      have hab : a = b := by
        rcases List.mem_cons.mp (hp.subset (List.mem_cons_self a t₁)) with h | ha₂
        · exact h
        · have hba : key b ≤ key a := List.rel_of_sorted_cons hs₂ a ha₂
          rcases List.mem_cons.mp (hp.symm.subset (List.mem_cons_self b t₂)) with h | hb₁
          · exact h.symm
          · have hkab : key a = key b :=
              le_antisymm (List.rel_of_sorted_cons hs₁ b hb₁) hba
            exact absurd (hkab ▸ List.mem_map_of_mem key hb₁) hn.1
      subst hab
      have ht : t₁.Perm t₂ := hp.cons_inv
      rw [ih ht hs₁.of_cons hs₂.of_cons hn.2]

lemma assign_map_cand : ∀ (n : Nat) (cs : List Cand),
    (assign n cs).map HeapItem.cand = cs := by
  intro n cs
  induction cs generalizing n with
  | nil => rfl
  | cons c cs ih => simp [assign, ih]

lemma assign_map_counter : ∀ (n : Nat) (cs : List Cand),
    (assign n cs).map HeapItem.counter = List.range' n cs.length := by
  intro n cs
  induction cs generalizing n with
  | nil => rfl
  | cons c cs ih => simp [assign, ih, List.range']

lemma assign_counter_nodup (n : Nat) (cs : List Cand) :
    ((assign n cs).map HeapItem.counter).Nodup := by
  rw [assign_map_counter]
  exact List.nodup_range' _ _

lemma nodup_hkey {h : List HeapItem}
    (hn : (h.map HeapItem.counter).Nodup) : (h.map hkey).Nodup := by
  have heq : h.map HeapItem.counter =
      (h.map hkey).map fun k => (ofLex (ofLex k).2).2 := by
    rw [List.map_map]
    rfl
  rw [heq] at hn
  exact hn.of_map _

lemma sorted_rankLE_toKey {l : List HeapItem} (hs : l.Sorted rankLE) :
    l.Sorted fun a b => hkey a ≤ hkey b :=
  hs.imp fun h => (rankLE_iff _ _).mp h

lemma sort_popMin {h : List HeapItem} {m : HeapItem} {rest : List HeapItem}
    (hn : (h.map hkey).Nodup) (hp : popMin h = some (m, rest)) :
    h.insertionSort rankLE = m :: rest.insertionSort rankLE := by
  have hperm : (m :: rest).Perm h := popMin_perm hp
  have hsl : (h.insertionSort rankLE).Sorted rankLE := List.sorted_insertionSort rankLE h
  have hsr : (m :: rest.insertionSort rankLE).Sorted rankLE := by
    rw [List.sorted_cons]
    refine ⟨fun b hb => ?_, List.sorted_insertionSort rankLE rest⟩
    have hbrest : b ∈ rest := (List.perm_insertionSort rankLE rest).subset hb
    have hbh : b ∈ h := hperm.subset (List.mem_cons_of_mem m hbrest)
    exact (rankLE_iff m b).mpr (popMin_min hp b hbh)
  have hpm : (h.insertionSort rankLE).Perm (m :: rest.insertionSort rankLE) :=
    (List.perm_insertionSort rankLE h).trans
      (hperm.symm.trans ((List.perm_insertionSort rankLE rest).symm.cons m))
  exact sorted_key_perm_eq hkey hpm (sorted_rankLE_toKey hsl) (sorted_rankLE_toKey hsr)
    ((((List.perm_insertionSort rankLE h).symm).map hkey).nodup hn)

lemma drain_eq_take_sort : ∀ (k : Nat) (h : List HeapItem),
    ((h.map HeapItem.counter).Nodup) →
    drainAux k h = (h.insertionSort rankLE).take k := by
  intro k
  induction k with
  | zero => intro h _; simp [drainAux]
  | succ k ih =>
    intro h hn
    cases hp : popMin h with
    | none =>
      have hnil : h = [] := popMin_eq_none.mp hp
      subst hnil
      simp [drainAux, popMin]
    | some p =>
      obtain ⟨m, rest⟩ := p
      have hrest : (rest.map HeapItem.counter).Nodup := by
        have hperm : ((m :: rest).map HeapItem.counter).Perm
            (h.map HeapItem.counter) := (popMin_perm hp).map _
        exact (hperm.symm.nodup hn).of_cons
      rw [show drainAux (k + 1) h = m :: drainAux k rest by simp [drainAux, hp],
        sort_popMin (nodup_hkey hn) hp, List.take_succ_cons, ih rest hrest]

/-- The part of the pushed key that ignores the insertion counter:
`(-hits, -mtime)` lexicographically. -/
def key2 (c : Cand) : Int ×ₗ Int :=
  toLex (-(c.hits : Int), -c.mtime)

lemma rankLE_key2 {a b : HeapItem} (h : rankLE a b) :
    key2 a.cand ≤ key2 b.cand := by
  unfold rankLE at h
  unfold key2
  rw [Prod.Lex.le_iff]
  omega

lemma sorted_map_cand {l : List HeapItem} (hs : l.Sorted rankLE) :
    (l.map HeapItem.cand).Sorted fun a b => key2 a ≤ key2 b :=
  List.Pairwise.map HeapItem.cand (fun _ _ h => rankLE_key2 h) hs

lemma nodup_key2_of {cs : List Cand}
    (hn : (cs.map fun c => (c.hits, c.mtime)).Nodup) : (cs.map key2).Nodup := by
  have heq : cs.map key2 =
      (cs.map fun c => (c.hits, c.mtime)).map fun p => toLex (-(p.1 : Int), -p.2) := by
    rw [List.map_map]
    rfl
  rw [heq]
  refine hn.map fun p q hpq => ?_
  have h2 := toLex.injective hpq
  obtain ⟨ha, hb⟩ := Prod.ext_iff.mp h2
  cases p
  cases q
  simp only at ha hb
  simp only [Prod.mk.injEq]
  omega

lemma drain_map_cand_indep {cands cands' : List Cand} (K : Nat)
    (hperm : cands'.Perm cands)
    (hn : (cands.map fun c => (c.hits, c.mtime)).Nodup) :
    (drainAux K (assign 1 cands')).map HeapItem.cand =
      (drainAux K (assign 1 cands)).map HeapItem.cand := by
  rw [drain_eq_take_sort K _ (assign_counter_nodup 1 cands'),
      drain_eq_take_sort K _ (assign_counter_nodup 1 cands),
      List.map_take, List.map_take]
  congr 1
  have hpA' : (((assign 1 cands').insertionSort rankLE).map HeapItem.cand).Perm cands' := by
    have h := (List.perm_insertionSort rankLE (assign 1 cands')).map HeapItem.cand
    rwa [assign_map_cand] at h
  have hpA : (((assign 1 cands).insertionSort rankLE).map HeapItem.cand).Perm cands := by
    have h := (List.perm_insertionSort rankLE (assign 1 cands)).map HeapItem.cand
    rwa [assign_map_cand] at h
  refine sorted_key_perm_eq key2
    (hpA'.trans (hperm.trans hpA.symm))
    (sorted_map_cand (List.sorted_insertionSort rankLE _))
    (sorted_map_cand (List.sorted_insertionSort rankLE _))
    ?_
  exact ((hpA'.map key2).trans (hperm.map key2)).symm.nodup (nodup_key2_of hn)

/-- C1: the bounded top-K selection of `search_history` (heap insert of each
scored candidate, then popping at most K items) returns the pushed
candidates in the order: hit count descending, then source modification time
descending, then insertion counter ascending, truncated to K; and whenever
the (hits, mtime) keys alone are pairwise distinct — i.e. the order does not
depend on the counter — the drained candidates are independent of the
insertion order of the stream. -/
theorem C1_bounded_topk (cands : List Cand) (K : Nat) :
    drainAux K (assign 1 cands) = ((assign 1 cands).insertionSort rankLE).take K ∧
    ∀ cands' : List Cand, cands'.Perm cands →
      (cands.map fun c => (c.hits, c.mtime)).Nodup →
      (drainAux K (assign 1 cands')).map HeapItem.cand =
        (drainAux K (assign 1 cands)).map HeapItem.cand :=
  ⟨drain_eq_take_sort K _ (assign_counter_nodup 1 cands),
   fun _ hperm hn => drain_map_cand_indep K hperm hn⟩

/-- A placeholder stored dict for selector witnesses, distinguished by its
line number. -/
def wItem (k : Nat) : Item :=
  ⟨[], [], [], [], [], k, 0, 0⟩

/-- A concrete candidate stream with pairwise distinct (hits, mtime) keys. -/
def wCands : List Cand :=
  [⟨1, 0, wItem 1⟩, ⟨2, 0, wItem 2⟩, ⟨1, 5, wItem 3⟩]

/-- The same candidates presented in a different insertion order. -/
def wCands2 : List Cand :=
  [⟨1, 5, wItem 3⟩, ⟨1, 0, wItem 1⟩, ⟨2, 0, wItem 2⟩]

theorem C1_bounded_topk_witness :
    wCands2.Perm wCands ∧
    ((wCands.map fun c => (c.hits, c.mtime)).Nodup) ∧
    (drainAux 2 (assign 1 wCands2)).map HeapItem.cand =
      (drainAux 2 (assign 1 wCands)).map HeapItem.cand :=
  ⟨by decide, by decide, (C1_bounded_topk wCands 2).2 wCands2 (by decide) (by decide)⟩

lemma drain_length_le : ∀ (k : Nat) (h : List HeapItem), (drainAux k h).length ≤ k := by
  intro k
  induction k with
  | zero => intro h; simp [drainAux]
  | succ k ih =>
    intro h
    cases hp : popMin h with
    | none => simp [drainAux, hp]
    | some p =>
      simp only [drainAux, hp, List.length_cons]
      exact Nat.succ_le_succ (ih p.2)

lemma drain_subset : ∀ (k : Nat) (h : List HeapItem), ∀ x ∈ drainAux k h, x ∈ h := by
  intro k
  induction k with
  | zero => intro h x hx; simp [drainAux] at hx
  | succ k ih =>
    intro h x hx
    cases hp : popMin h with
    | none => simp [drainAux, hp] at hx
    | some p =>
      obtain ⟨m, rest⟩ := p
      simp only [drainAux, hp] at hx
      rcases List.mem_cons.mp hx with rfl | hx'
      · exact (popMin_perm hp).subset (List.mem_cons_self _ _)
      · exact (popMin_perm hp).subset (List.mem_cons_of_mem m (ih rest x hx'))

lemma drain_pairwise {k : Nat} {h : List HeapItem}
    (hn : (h.map HeapItem.counter).Nodup) : (drainAux k h).Pairwise rankLE := by
  rw [drain_eq_take_sort k h hn]
  exact List.Pairwise.sublist (List.take_sublist k _) (List.sorted_insertionSort rankLE h)

lemma mem_assign_cand {hi : HeapItem} : ∀ {n : Nat} {cs : List Cand},
    hi ∈ assign n cs → hi.cand ∈ cs := by
  intro n cs
  intro h
  have := List.mem_map_of_mem HeapItem.cand h
  rwa [assign_map_cand] at this

lemma rankLE_hits {a b : HeapItem} (h : rankLE a b) :
    b.cand.hits ≤ a.cand.hits := by
  unfold rankLE at h
  omega

section PipelineLemmas

variable (isAl : Char → Bool) (low : Char → Char)

lemma candList_item_hits (pairs : List (List Char × List Char)) (msgs : List Msg) :
    ∀ c ∈ candList low pairs msgs, c.item.hits = c.hits := by
  intro c hc
  unfold candList at hc
  obtain ⟨m, _, hm⟩ := List.mem_filterMap.mp hc
  by_cases h0 : 0 < count_pair_hits low m.content pairs
  · rw [if_pos h0] at hm
    cases hm
    rfl
  · rw [if_neg h0] at hm
    cases hm

/-- The hit count stored in a result row (its `'hits'` dict entry). -/
def entryHits (e : List (String × RVal)) : Nat :=
  match e.lookup "hits" with
  | some (.n k) => k
  | _ => 0

lemma entryHits_resultEntry (pairs : List (List Char × List Char)) (it : Item) :
    entryHits (resultEntry low pairs it) = it.hits := by
  rfl

lemma resultEntry_keys (pairs : List (List Char × List Char)) (it : Item) :
    (resultEntry low pairs it).map Prod.fst = ["file", "line", "hits", "snippet"] :=
  rfl

end PipelineLemmas

/-- C2 (amended): `search_history` returns at most `limit` rows, each row is
the dict with exactly the keys `file`, `line`, `hits`, `snippet` (no rank
and no score field), and the rows come highest-ranked first (their stored
hit counts are non-increasing). -/
theorem C2_returned_rows (isAl : Char → Bool) (low : Char → Char)
    (corpus : Corpus) (query : List Char) (limit : Nat) :
    (search_history isAl low corpus query limit).length ≤ limit ∧
    ((search_history isAl low corpus query limit).map fun e => e.map Prod.fst) =
      List.replicate (search_history isAl low corpus query limit).length
        ["file", "line", "hits", "snippet"] ∧
    (search_history isAl low corpus query limit).Pairwise
      fun e₁ e₂ => entryHits e₂ ≤ entryHits e₁ := by
  simp only [search_history]
  split
  · simp
  · set pairs := create_pairs (tokenize isAl low query) with hpairs
    set dl := drainAux limit (assign 1 (candList low pairs (msgsOf corpus))) with hdl
    refine ⟨?_, ?_, ?_⟩
    · rw [List.length_map]
      exact drain_length_le limit _
    · rw [List.map_map, List.length_map]
      have hconst : ((fun e : List (String × RVal) => e.map Prod.fst) ∘
          fun hi : HeapItem => resultEntry low pairs hi.cand.item) =
          fun _ => ["file", "line", "hits", "snippet"] := rfl
      rw [hconst, List.map_const']
    · have hpw : dl.Pairwise rankLE := drain_pairwise (assign_counter_nodup 1 _)
      have hmem : ∀ hi ∈ dl, hi.cand.item.hits = hi.cand.hits := fun hi hh =>
        candList_item_hits low pairs (msgsOf corpus) _
          (mem_assign_cand (drain_subset _ _ hi hh))
      have hpw2 : dl.Pairwise fun a b =>
          entryHits (resultEntry low pairs b.cand.item) ≤
            entryHits (resultEntry low pairs a.cand.item) := by
        refine hpw.imp_of_mem fun ha hb hr => ?_
        rw [entryHits_resultEntry, entryHits_resultEntry, hmem _ ha, hmem _ hb]
        exact rankLE_hits hr
      exact List.Pairwise.map _ (fun a b h => h) hpw2

/-- A qualifying user record whose content contains both query tokens. -/
def demoEntry : Entry :=
  ⟨some "user".toList, false, .str "I love using claude code daily yes".toList, []⟩

/-- A readable one-line session file holding `demoEntry`. -/
def demoFile : SessionFile :=
  ⟨"proj".toList, "abcd1234-x.jsonl".toList, 5, none, [some demoEntry]⟩

/-- A one-file corpus for concrete end-to-end evaluations. -/
def demoCorpus : Corpus :=
  ⟨"/root/.claude/projects".toList, [demoFile]⟩

/-- C2 counterexample: on a corpus where the query matches, the single
returned row carries exactly the keys `file`, `line`, `hits`, `snippet` —
`rank` and `score` (= normalized score × weight) are not among them, so the
claim that every returned entry carries a 1-based rank and a final score is
false of the code. -/
theorem C2_counterexample :
    ((search_history Char.isAlpha Char.toLower demoCorpus
        ("claude code".toList) 3).map fun e => e.map Prod.fst) =
      [["file", "line", "hits", "snippet"]] ∧
    ¬ ("rank" ∈ (["file", "line", "hits", "snippet"] : List String)) ∧
    ¬ ("score" ∈ (["file", "line", "hits", "snippet"] : List String)) :=
  ⟨by decide, by decide, by decide⟩

/-- C4 counterexample: the claim's example table says rank 2 gets weight
0.25, but `int(log(2)/log(4)) = int(0.5) = 0`, so the code returns
`1 / 4 ** 0 = 1.0` at rank 2. -/
theorem C4_counterexample : dheap_weight 2 4 = 1 ∧ (1 : ℚ) ≠ 1 / 4 := by
  constructor
  · unfold dheap_weight
    rw [if_neg (by norm_num)]
    have hm : (max (2 : Int) 1).toNat = 2 := by decide
    rw [hm, @Nat.log_eq_of_pow_le_of_lt_pow 4 0 2 (by norm_num) (by norm_num)]
    norm_num
  · norm_num

lemma dheap_weight_pos (r : Int) (h1 : 1 ≤ r) :
    dheap_weight r 4 = 1 / 4 ^ Nat.log 4 r.toNat := by
  unfold dheap_weight
  rw [if_neg (by omega), max_eq_left h1]
  norm_num

/-- C4 (amended): `dheap_weight` returns 1 for rank ≤ 0 and
`1 / 4 ^ ⌊log₄ rank⌋` otherwise; concretely ranks 1–3 get weight 1.0,
ranks 4–15 get 0.25, and ranks 16–63 get 0.0625 (the layer boundaries sit
at the powers of 4, not at the claim's 2/5/17). -/
theorem C4_rank_decay (r : Int) :
    (r ≤ 0 → dheap_weight r 4 = 1) ∧
    (1 ≤ r → dheap_weight r 4 = 1 / 4 ^ Nat.log 4 r.toNat) ∧
    (1 ≤ r → r ≤ 3 → dheap_weight r 4 = 1) ∧
    (4 ≤ r → r ≤ 15 → dheap_weight r 4 = 1 / 4) ∧
    (16 ≤ r → r ≤ 63 → dheap_weight r 4 = 1 / 16) := by
  refine ⟨fun h => by unfold dheap_weight; rw [if_pos h], dheap_weight_pos r,
    fun h1 h3 => ?_, fun h4 h15 => ?_, fun h16 h63 => ?_⟩
  · have hb : 1 ≤ r.toNat ∧ r.toNat < 4 := by omega
    rw [dheap_weight_pos r h1,
      @Nat.log_eq_of_pow_le_of_lt_pow 4 0 r.toNat (by simpa using hb.1)
        (by simpa using hb.2)]
    norm_num
  · have hb : 4 ≤ r.toNat ∧ r.toNat < 16 := by omega
    rw [dheap_weight_pos r (by omega),
      @Nat.log_eq_of_pow_le_of_lt_pow 4 1 r.toNat (by simpa using hb.1)
        (by norm_num; omega)]
    norm_num
  · have hb : 16 ≤ r.toNat ∧ r.toNat < 64 := by omega
    rw [dheap_weight_pos r (by omega),
      @Nat.log_eq_of_pow_le_of_lt_pow 4 2 r.toNat (by norm_num; omega)
        (by norm_num; omega)]
    norm_num

theorem C4_rank_decay_witness :
    dheap_weight (-1) 4 = 1 ∧ dheap_weight 2 4 = 1 ∧
    dheap_weight 5 4 = 1 / 4 ∧ dheap_weight 20 4 = 1 / 16 :=
  ⟨(C4_rank_decay (-1)).1 (by norm_num),
   (C4_rank_decay 2).2.2.1 (by norm_num) (by norm_num),
   (C4_rank_decay 5).2.2.2.1 (by norm_num) (by norm_num),
   (C4_rank_decay 20).2.2.2.2 (by norm_num) (by norm_num)⟩

/-- The pivot as the claim describes it: the smaller of the two
first-occurrence indices of the first pair (in generator order) whose
tokens both occur in the lowered body, and 0 when no pair matches. -/
def pivotSpec (cl : List Char) (pairs : List (List Char × List Char)) : Nat :=
  match pairs.find? fun pr => substrB cl pr.1 && substrB cl pr.2 with
  | some pr => min ((strFind cl pr.1).getD 0) ((strFind cl pr.2).getD 0)
  | none => 0

lemma findPivot_eq_pivotSpec (cl : List Char) :
    ∀ pairs : List (List Char × List Char), findPivot cl pairs = pivotSpec cl pairs := by
  intro pairs
  induction pairs with
  | nil => rfl
  | cons pr ps ih =>
    obtain ⟨t1, t2⟩ := pr
    cases h1 : strFind cl t1 <;> cases h2 : strFind cl t2 <;>
      simp [findPivot, pivotSpec, List.find?, substrB, h1, h2, ih]

/-- C5: the snippet is `body[max(0, pivot-100) : min(len, pivot+100)]`
around the pivot of the first qualifying pair (the smaller of its two
first-occurrence indices in the case-lowered body, 0 when no pair matches;
`pivot - 100` below is truncated natural subtraction, i.e.
`max(0, pivot-100)`), with `'...'` prepended exactly when the window starts
after the body's start and `'...'` appended exactly when it ends before the
body's end. -/
theorem C5_snippet_window (low : Char → Char) (content : List Char)
    (pairs : List (List Char × List Char)) :
    extract_snippet low content pairs =
      (if 0 < pivotSpec (content.map low) pairs - 100 then "...".toList else []) ++
        ((content.take (min content.length (pivotSpec (content.map low) pairs + 100))).drop
          (pivotSpec (content.map low) pairs - 100)) ++
        (if min content.length (pivotSpec (content.map low) pairs + 100) < content.length
         then "...".toList else []) := by
  simp only [extract_snippet, findPivot_eq_pivotSpec]
  by_cases h1 : 0 < pivotSpec (content.map low) pairs - 100 <;>
    by_cases h2 : min content.length (pivotSpec (content.map low) pairs + 100) <
      content.length <;>
    simp [h1, h2, List.append_assoc]

lemma mem_dedupAux : ∀ (ts seen : List (List Char)) (x : List Char),
    x ∈ dedupAux seen ts → x ∈ ts ∧ x ∉ seen ∧ x ≠ [] := by
  intro ts
  induction ts with
  | nil => intro seen x hx; simp [dedupAux] at hx
  | cons t ts ih =>
    intro seen x hx
    simp only [dedupAux] at hx
    split at hx
    case isTrue hc =>
      obtain ⟨h1, h2, h3⟩ := ih seen x hx
      exact ⟨List.mem_cons_of_mem t h1, h2, h3⟩
    case isFalse hc =>
      push_neg at hc
      rcases List.mem_cons.mp hx with rfl | hx'
      · exact ⟨List.mem_cons_self _ _, hc.2, hc.1⟩
      · obtain ⟨h1, h2, h3⟩ := ih (t :: seen) x hx'
        exact ⟨List.mem_cons_of_mem t h1,
          fun hmem => h2 (List.mem_cons_of_mem t hmem), h3⟩

lemma nodup_dedupAux : ∀ (ts seen : List (List Char)), (dedupAux seen ts).Nodup := by
  intro ts
  induction ts with
  | nil => intro seen; simp [dedupAux]
  | cons t ts ih =>
    intro seen
    simp only [dedupAux]
    split
    · exact ih seen
    · refine List.nodup_cons.mpr ⟨fun hmem => ?_, ih (t :: seen)⟩
      exact (mem_dedupAux ts (t :: seen) t hmem).2.1 (List.mem_cons_self _ _)

/-- The index of the first occurrence of `x` in a list of tokens (0 when
absent, like `list.index` would find it for present elements). -/
def firstIdx (x : List Char) : List (List Char) → Nat
  | [] => 0
  | y :: ys => if y = x then 0 else firstIdx x ys + 1

lemma firstIdx_cons_self (x : List Char) (l : List (List Char)) :
    firstIdx x (x :: l) = 0 := by
  simp [firstIdx]

lemma firstIdx_cons_ne {x y : List Char} (l : List (List Char)) (h : y ≠ x) :
    firstIdx x (y :: l) = firstIdx x l + 1 := by
  simp [firstIdx, h]

lemma dedupAux_indexOf_pairwise : ∀ (ts seen : List (List Char)),
    (dedupAux seen ts).Pairwise fun a b => firstIdx a ts < firstIdx b ts := by
  intro ts
  induction ts with
  | nil => intro seen; simp [dedupAux]
  | cons t ts ih =>
    intro seen
    simp only [dedupAux]
    split
    case isTrue hc =>
      refine (ih seen).imp_of_mem fun {a b} ha hb hr => ?_
      have hat : t ≠ a := by
        obtain ⟨_, h2, h3⟩ := mem_dedupAux ts seen a ha
        rcases hc with hc | hc
        · intro he; exact h3 (he ▸ hc)
        · intro he; exact h2 (he ▸ hc)
      have hbt : t ≠ b := by
        obtain ⟨_, h2, h3⟩ := mem_dedupAux ts seen b hb
        rcases hc with hc | hc
        · intro he; exact h3 (he ▸ hc)
        · intro he; exact h2 (he ▸ hc)
      show firstIdx a (t :: ts) < firstIdx b (t :: ts)
      rw [firstIdx_cons_ne ts hat, firstIdx_cons_ne ts hbt]
      exact Nat.succ_lt_succ hr
    case isFalse hc =>
      refine List.pairwise_cons.mpr ⟨fun b hb => ?_, ?_⟩
      · have hbt : t ≠ b := by
          intro he
          exact (mem_dedupAux ts (t :: seen) b hb).2.1 (he ▸ List.mem_cons_self t seen)
        show firstIdx t (t :: ts) < firstIdx b (t :: ts)
        rw [firstIdx_cons_self, firstIdx_cons_ne ts hbt]
        exact Nat.succ_pos _
      · refine (ih (t :: seen)).imp_of_mem fun {a b} ha hb hr => ?_
        have hat : t ≠ a := by
          intro he
          exact (mem_dedupAux ts (t :: seen) a ha).2.1 (he ▸ List.mem_cons_self t seen)
        have hbt : t ≠ b := by
          intro he
          exact (mem_dedupAux ts (t :: seen) b hb).2.1 (he ▸ List.mem_cons_self t seen)
        show firstIdx a (t :: ts) < firstIdx b (t :: ts)
        rw [firstIdx_cons_ne ts hat, firstIdx_cons_ne ts hbt]
        exact Nat.succ_lt_succ hr

/-- C6: for every character semantics and every input text, the tokenizer
yields at most 10 tokens, with no duplicates, listed so that their
first-occurrence positions in the scanned raw token stream (which follows
the order of appearance in the source text) are strictly increasing. -/
theorem C6_tokenizer_bounds (isAl : Char → Bool) (low : Char → Char)
    (text : List Char) :
    (tokenize isAl low text).length ≤ 10 ∧
    (tokenize isAl low text).Nodup ∧
    (tokenize isAl low text).Pairwise fun a b =>
      firstIdx a (rawTokens isAl low text) < firstIdx b (rawTokens isAl low text) := by
  unfold tokenize
  refine ⟨List.length_take_le 10 _, ?_, ?_⟩
  · exact (List.take_sublist 10 _).nodup (nodup_dedupAux _ [])
  · exact List.Pairwise.sublist (List.take_sublist 10 _)
      (dedupAux_indexOf_pairwise _ [])

/-- C7: a query that tokenizes to fewer than 2 distinct tokens produces an
empty pair list, so `search_history` returns `[]` regardless of the corpus. -/
theorem C7_short_query (isAl : Char → Bool) (low : Char → Char)
    (corpus : Corpus) (query : List Char) (limit : Nat)
    (h : (tokenize isAl low query).length < 2) :
    search_history isAl low corpus query limit = [] := by
  have hp : create_pairs (tokenize isAl low query) = [] := by
    rcases t : tokenize isAl low query with _ | ⟨a, _ | ⟨b, rest⟩⟩
    · rfl
    · rfl
    · rw [t] at h
      simp at h
      exact absurd h (by omega)
  simp [search_history, hp]

theorem C7_short_query_witness :
    (tokenize Char.isAlpha Char.toLower "!!!".toList).length < 2 ∧
    search_history Char.isAlpha Char.toLower demoCorpus "!!!".toList 3 = [] :=
  ⟨by decide, C7_short_query Char.isAlpha Char.toLower demoCorpus "!!!".toList 3 (by decide)⟩

/-- C8: `get_context` is a total function into result records; when no
discovered file bears the requested name it returns the structured
file-not-found error (with the searched root), and when the named file's
open/read raises it returns the structured read-failure error carrying the
exception's description. -/
theorem C8_get_context_errors (corpus : Corpus) (file : List Char)
    (line context_lines : Int) :
    ((corpus.files.find? fun sf => decide (sf.name = file)) = none →
      get_context corpus file line context_lines =
        .notFound ("File not found: ".toList ++ file) corpus.root) ∧
    (∀ tf e, (corpus.files.find? fun sf => decide (sf.name = file)) = some tf →
      tf.readErr = some e →
      get_context corpus file line context_lines =
        .readError ("Failed to read file: ".toList ++ e)) := by
  constructor
  · intro h
    unfold get_context
    rw [h]
  · intro tf e hf he
    unfold get_context
    rw [hf]
    simp only [he]

/-- An unreadable session file (its open raises). -/
def demoBadFile : SessionFile :=
  ⟨"proj".toList, "bad.jsonl".toList, 7, some "Permission denied".toList, []⟩

/-- A corpus whose only file is unreadable. -/
def demoCorpus2 : Corpus :=
  ⟨"/root/.claude/projects".toList, [demoBadFile]⟩

theorem C8_get_context_errors_witness :
    get_context demoCorpus "missing.jsonl".toList 1 5 =
      .notFound ("File not found: missing.jsonl".toList) demoCorpus.root ∧
    get_context demoCorpus2 "bad.jsonl".toList 1 5 =
      .readError ("Failed to read file: Permission denied".toList) :=
  ⟨(C8_get_context_errors demoCorpus "missing.jsonl".toList 1 5).1 (by decide),
   (C8_get_context_errors demoCorpus2 "bad.jsonl".toList 1 5).2 demoBadFile
     "Permission denied".toList (by decide) rfl⟩

lemma quals_eq (e : Entry) : statsQualifies e = (searchContent e).isSome := by
  unfold statsQualifies searchContent
  by_cases hu : e.type = some "user".toList ∧ e.isMeta = false
  · rw [if_pos hu, if_pos hu]
    cases hc : e.content with
    | str s =>
      dsimp only
      by_cases h : s ≠ [] ∧ 20 < s.length
      · rw [if_pos h]
        simp [List.isEmpty_iff, h.1, h.2]
      · rw [if_neg h]
        by_cases hs : s = []
        · simp [hs]
        · have hl : ¬ 20 < s.length := fun hl => h ⟨hs, hl⟩
          simp [List.isEmpty_iff, hs, hl]
    | blocks bs => rfl
    | missing => rfl
  · rw [if_neg hu, if_neg hu]
    by_cases ha : e.type = some "assistant".toList
    · rw [if_pos ha, if_pos ha]
      dsimp only
      by_cases h : concatTexts e.content ≠ [] ∧ 50 < (concatTexts e.content).length
      · rw [if_pos h]
        simp [List.isEmpty_iff, h.1, h.2]
      · rw [if_neg h]
        by_cases hs : concatTexts e.content = []
        · simp [hs]
        · have hl : ¬ 50 < (concatTexts e.content).length := fun hl => h ⟨hs, hl⟩
          simp [List.isEmpty_iff, hs, hl]
    · rw [if_neg ha, if_neg ha]
      rfl

lemma msgs_count_aux (proj sess nm : List Char) (mt : Int) :
    ∀ (ls : List (Option Entry)) (n : Nat),
    ((List.enumFrom n ls).filterMap fun le =>
      le.2.bind fun e => (searchContent e).map fun c =>
        (⟨proj, e.type.getD [], c, sess, nm, le.1, mt⟩ : Msg)).length =
    (ls.filterMap id).countP statsQualifies := by
  intro ls
  induction ls with
  | nil => intro n; rfl
  | cons oe ls ih =>
    intro n
    rw [List.enumFrom_cons, List.filterMap_cons, List.filterMap_cons]
    cases oe with
    | none => simpa using ih (n + 1)
    | some e =>
      cases hs : searchContent e with
      | none =>
        have hq : statsQualifies e = false := by rw [quals_eq, hs]; rfl
        simp [hs, hq, List.countP_cons, ih (n + 1)]
      | some c =>
        have hq : statsQualifies e = true := by rw [quals_eq, hs]; rfl
        simp [hs, hq, List.countP_cons, ih (n + 1)]

lemma fileMsgs_length (sf : SessionFile) :
    (fileMsgs sf).length =
      if sf.readErr.isSome then 0
      else (sf.lines.filterMap id).countP statsQualifies := by
  unfold fileMsgs
  by_cases hr : sf.readErr.isSome
  · simp [hr]
  · simp only [hr, if_false, Bool.false_eq_true]
    exact msgs_count_aux sf.project (sessionOf sf) sf.name sf.mtime sf.lines 1

/-- C9: a parsed record is counted in `search_stats`' `total_messages`
exactly when `search_history` would admit it as a scorable candidate
message, and that common predicate is: a user record with `isMeta` unset
and plain-string content longer than 20 characters, or an assistant record
whose concatenated text blocks exceed 50 characters. -/
theorem C9_stats_equals_search_admission :
    (∀ e : Entry, statsQualifies e = true ↔ (searchContent e).isSome) ∧
    (∀ corpus : Corpus, (search_stats corpus).total_messages = (msgsOf corpus).length) ∧
    (∀ e : Entry, (searchContent e).isSome ↔
      ((e.type = some "user".toList ∧ e.isMeta = false ∧
          ∃ s, e.content = .str s ∧ 20 < s.length) ∨
        (e.type = some "assistant".toList ∧
          50 < (concatTexts e.content).length))) := by
  refine ⟨fun e => by rw [quals_eq], fun corpus => ?_, fun e => ?_⟩
  · unfold search_stats msgsOf
    simp only [List.length_flatten, List.map_map]
    apply congrArg List.sum
    apply List.map_congr_left
    intro sf _
    rw [Function.comp_apply, fileMsgs_length]
  · unfold searchContent
    by_cases hu : e.type = some "user".toList ∧ e.isMeta = false
    · rw [if_pos hu]
      have hne : ¬ e.type = some "assistant".toList := by
        rw [hu.1]
        intro hcon
        have h2 := Option.some.inj hcon
        simp at h2
      cases hc : e.content with
      | str s =>
        dsimp only
        by_cases h20 : 20 < s.length
        · have hs : s ≠ [] := by
            intro he
            rw [he] at h20
            simp at h20
          rw [if_pos ⟨hs, h20⟩]
          simp only [Option.isSome_some, true_iff]
          exact Or.inl ⟨hu.1, hu.2, s, rfl, h20⟩
        · rw [if_neg fun hcon => h20 hcon.2]
          simp only [Option.isSome_none, Bool.false_eq_true, false_iff]
          rintro (⟨_, _, s1, hs1, h1⟩ | ⟨h1, _⟩)
          · cases JContent.str.inj hs1
            exact h20 h1
          · exact hne h1
      | blocks bs =>
        dsimp only
        simp only [Option.isSome_none, Bool.false_eq_true, false_iff]
        rintro (⟨_, _, s1, hs1, _⟩ | ⟨h1, _⟩)
        · exact JContent.noConfusion hs1
        · exact hne h1
      | missing =>
        dsimp only
        simp only [Option.isSome_none, Bool.false_eq_true, false_iff]
        rintro (⟨_, _, s1, hs1, _⟩ | ⟨h1, _⟩)
        · exact JContent.noConfusion hs1
        · exact hne h1
    · rw [if_neg hu]
      by_cases ha : e.type = some "assistant".toList
      · rw [if_pos ha]
        have hnu : ¬ e.type = some "user".toList := by
          rw [ha]
          intro hcon
          have h2 := Option.some.inj hcon
          simp at h2
        dsimp only
        by_cases h50 : 50 < (concatTexts e.content).length
        · have hs : concatTexts e.content ≠ [] := by
            intro he
            rw [he] at h50
            simp at h50
          rw [if_pos ⟨hs, h50⟩]
          simp only [Option.isSome_some, true_iff]
          exact Or.inr ⟨ha, h50⟩
        · rw [if_neg fun hcon => h50 hcon.2]
          simp only [Option.isSome_none, Bool.false_eq_true, false_iff]
          rintro (⟨h1, h2, _⟩ | ⟨_, h1⟩)
          · exact hu ⟨h1, h2⟩
          · exact h50 h1
      · rw [if_neg ha]
        simp only [Option.isSome_none, Bool.false_eq_true, false_iff]
        rintro (⟨h1, h2, _⟩ | ⟨h1, _⟩)
        · exact hu ⟨h1, h2⟩
        · exact ha h1

/-- The length of a rebuilt content value: characters of a string, elements
of a block list. -/
def gcContentLen : GCContent → Nat
  | .str s => s.length
  | .blocks bs => bs.length

lemma gcTruncate_len (c : GCContent) : gcContentLen (gcTruncate c) ≤ 1000 := by
  cases c with
  | str s => simp [gcTruncate, gcContentLen, List.length_take_le]
  | blocks bs =>
    by_cases h : bs = []
    · simp [gcTruncate, h, gcContentLen]
    · simp only [gcTruncate, if_neg h]
      simp [gcContentLen, List.length_take_le]

/-- C10: every record in a successful `get_context` result carries content
truncated to at most 1000 characters (string) or 1000 elements (block
list), the target line included. -/
theorem C10_context_truncation (corpus : Corpus) (file : List Char)
    (line context_lines : Int) (f : List Char) (tl : Int) (cr : List Char)
    (msgs : List GCRecord) (tm : Nat)
    (hok : get_context corpus file line context_lines = .ok f tl cr msgs tm) :
    ∀ rec ∈ msgs, gcContentLen rec.content ≤ 1000 := by
  unfold get_context at hok
  cases hf : corpus.files.find? fun sf => decide (sf.name = file) with
  | none =>
    rw [hf] at hok
    exact absurd hok (by simp)
  | some tf =>
    rw [hf] at hok
    cases hre : tf.readErr with
    | some err =>
      simp only [hre] at hok
      exact absurd hok (by simp)
    | none =>
      simp only [hre] at hok
      have hmsgs : msgs = gcMessages tf line context_lines :=
        (GCResult.ok.inj hok).2.2.2.1.symm
      subst hmsgs
      intro rec hrec
      obtain ⟨le, hle, hfm⟩ := List.mem_filterMap.mp hrec
      split at hfm
      · cases hoe : le.2 with
        | none =>
          rw [hoe] at hfm
          simp at hfm
        | some e =>
          rw [hoe] at hfm
          simp only [Option.some_bind] at hfm
          cases hgc : gcRawContent e with
          | none =>
            rw [hgc] at hfm
            simp at hfm
          | some c =>
            rw [hgc] at hfm
            simp only [Option.map_some'] at hfm
            rw [← Option.some.inj hfm]
            exact gcTruncate_len c
      · simp at hfm

/-- The record `get_context` rebuilds from `demoFile`'s only line. -/
def demoRecord : GCRecord :=
  ⟨1, some "user".toList, .str "I love using claude code daily yes".toList, true⟩

theorem C10_context_truncation_witness :
    gcContentLen demoRecord.content ≤ 1000 :=
  C10_context_truncation demoCorpus "abcd1234-x.jsonl".toList 1 5
    "abcd1234-x.jsonl".toList 1 "1-6".toList [demoRecord] 1 (by decide)
    demoRecord (by decide)

/-- A readable three-line session file. -/
def demo3File : SessionFile :=
  ⟨"proj".toList, "three.jsonl".toList, 9, none,
    [some demoEntry, some demoEntry, some demoEntry]⟩

/-- A one-file corpus whose only file has exactly 3 lines. -/
def demo3Corpus : Corpus :=
  ⟨"/root/.claude/projects".toList, [demo3File]⟩

/-- C3 counterexample: on a 3-line file, `get_context(line=50,
context_lines=5)` returns ZERO parsed records (the window 45-55 lies beyond
the file), not all 3 as the claim states; `context_range` is `"45-55"`. -/
theorem C3_counterexample :
    get_context demo3Corpus "three.jsonl".toList 50 5 =
      .ok "three.jsonl".toList 50 "45-55".toList [] 0 ∧ (0 : Nat) ≠ 3 :=
  ⟨by decide, by decide⟩

/-- C3 (amended): when the clamped window `[max 1 (line - context_lines),
line + context_lines]` starts beyond the file's last line — as with
`line=50, context_lines=5` on a 3-line file — `get_context` returns a
success record with zero parsed records (so none is marked `is_target`) and
`context_range` rendered as `"<start>-<end>"` (here `"45-55"`). -/
theorem C3_window_beyond_file (corpus : Corpus) (file : List Char)
    (line context_lines : Int) (tf : SessionFile)
    (hf : (corpus.files.find? fun sf => decide (sf.name = file)) = some tf)
    (hre : tf.readErr = none)
    (hbeyond : (tf.lines.length : Int) < line - context_lines) :
    get_context corpus file line context_lines =
      .ok file line
        ((toString (max 1 (line - context_lines))).toList ++ '-' ::
          (toString (line + context_lines)).toList) [] 0 := by
  unfold get_context
  rw [hf]
  simp only [hre]
  have hM : gcMessages tf line context_lines = [] := by
    unfold gcMessages
    rw [List.filterMap_eq_nil_iff]
    rintro ⟨i, oe⟩ hle
    have hb := List.mem_enumFrom hle
    rw [if_neg ?_]
    have h1 : i < 1 + tf.lines.length := hb.2.1
    intro hcon
    have h2 : max 1 (line - context_lines) ≤ (i : Int) := hcon.1
    omega
  rw [hM]
  rfl

theorem C3_window_beyond_file_witness :
    get_context demo3Corpus "three.jsonl".toList 50 5 =
      .ok "three.jsonl".toList 50
        ((toString (max 1 ((50 : Int) - 5))).toList ++ '-' ::
          (toString ((50 : Int) + 5)).toList) [] 0 :=
  C3_window_beyond_file demo3Corpus "three.jsonl".toList 50 5 demo3File
    (by decide) rfl (by decide)
